import Mathlib

/-!
Shallow embedding of the messaging API server (Express + Firestore), i.e. the
message/participant consistency and normalization layer of the repository.
The HTTP router, JSON parsing, CORS and process bootstrap are external
plumbing; each route handler body is translated here as a pure function from
an explicit store state to a new state, a trace of store accesses, and a
response.  The backing document store is modelled by association lists:
a top-level `projects` collection keyed by project id, and the per-project
`messages` sub-collections flattened into one list keyed by the pair
(project id, message id) — faithful to Firestore, where sub-collection
documents live independently of the parent document.

Store-assigned data that the real system obtains from its environment is
passed in as parameters: the current wall-clock time (`now`, epoch
milliseconds) and the representation the store hands back when a just-written
timestamp is read (`TsValue`), since Firestore may return a stored instant in
several shapes.
-/

namespace MsgApi

/-- JavaScript `String.prototype.trim` on the underlying character list:
drop whitespace from the front, then from the back. -/
def trimChars (cs : List Char) : List Char :=
  ((cs.dropWhile Char.isWhitespace).reverse.dropWhile Char.isWhitespace).reverse

/-- JavaScript `s.trim()` modelled over Lean strings. -/
def jsTrim (s : String) : String := String.mk (trimChars s.data)

/-- The validation test the handlers apply to every required string field:
`!field || field.trim() === ""`; for a string both disjuncts collapse to the
trimmed value being empty. -/
def isBlank (s : String) : Prop := jsTrim s = ""

instance (s : String) : Decidable (isBlank s) :=
  inferInstanceAs (Decidable (jsTrim s = ""))

/-- The shapes in which the backing store may hand back a stored timestamp
(the three shapes the normalization code inspects), plus `other` for a truthy
value of an unrecognized shape.  A missing/falsy `timestamp` field is `none`
at the use sites. -/
inductive TsValue where
  /-- An object already carrying `_seconds` and `_nanoseconds`. -/
  | fsTs (s ns : Int)
  /-- An object carrying numeric `seconds` and `nanoseconds`. -/
  | rawTs (s ns : Int)
  /-- A native `Date`; `ms` is `getTime()`, epoch milliseconds. -/
  | jsDate (ms : Int)
  /-- Any other truthy value. -/
  | other
deriving Repr, DecidableEq

/-- The canonical normalized timestamp shape `{_seconds, _nanoseconds}`. -/
structure NormTs where
  _seconds : Int
  _nanoseconds : Int
deriving Repr, DecidableEq

/-- JavaScript `%` on integers: remainder of truncating division
(sign follows the dividend). -/
def jsRem (a b : Int) : Int := Int.tmod a b

/-- JavaScript `Math.floor(a / b)` on integers: flooring division. -/
def jsFloorDiv (a b : Int) : Int := Int.fdiv a b

/-- Timestamp normalization as written inline in the GET
`/projects/:projectId/messages` handler: `null` when the field is falsy;
unchanged when `_seconds`/`_nanoseconds` are present; renamed when numeric
`seconds`/`nanoseconds` are present; computed from `getTime()` for a `Date`
(`Math.floor(t/1000)` seconds and `(t % 1000) * 1000000` nanoseconds); and
left `null` for any other truthy value. -/
def normalizeTimestampList : Option TsValue → Option NormTs
  | none => none
  | some (TsValue.fsTs s ns) => some ⟨s, ns⟩
  | some (TsValue.rawTs s ns) => some ⟨s, ns⟩
  | some (TsValue.jsDate ms) => some ⟨jsFloorDiv ms 1000, jsRem ms 1000 * 1000000⟩
  | some TsValue.other => none

/-- Timestamp normalization as written (a second, textually separate copy) in
the POST `/projects/:projectId/messages` handler, applied to the read-back of
the just-written message. -/
def normalizeTimestampSend : Option TsValue → Option NormTs
  | none => none
  | some (TsValue.fsTs s ns) => some ⟨s, ns⟩
  | some (TsValue.rawTs s ns) => some ⟨s, ns⟩
  | some (TsValue.jsDate ms) => some ⟨jsFloorDiv ms 1000, jsRem ms 1000 * 1000000⟩
  | some TsValue.other => none

/-- The JSON value a list/send response carries in its `timestamp` field:
the canonical object, or `null`.  Used to compare emissions across endpoints
with the raw `TsValue` an unnormalized path emits. -/
def emitNorm (o : Option NormTs) : Option TsValue :=
  o.map fun n => TsValue.fsTs n._seconds n._nanoseconds

/-- A message document as stored: `senderId`, `content`, `timestamp`, and the
`edited`/`editedAt` fields that are absent (`none`) until the first edit. -/
structure MessageRecord where
  senderId : String
  content : String
  timestamp : Option TsValue
  edited : Option Bool
  editedAt : Option TsValue
deriving Repr, DecidableEq

/-- A project document: `participants`, `createdAt`, optional `description`. -/
structure ProjectDoc where
  participants : List String
  createdAt : TsValue
  description : Option String
deriving Repr, DecidableEq

/-- The whole backing store: the `projects` collection, the flattened
`messages` sub-collections keyed by (project id, message id), and the
counter from which store-generated message ids are drawn. -/
structure Store where
  projects : List (String × ProjectDoc)
  msgs : List ((String × String) × MessageRecord)
  nextId : Nat
deriving Repr, DecidableEq

def emptyStore : Store := ⟨[], [], 0⟩

/-- The store-generated id for the `n`-th `add` call (opaque unique id). -/
def genId (n : Nat) : String := toString n

/-- Document lookup in a collection (association list, first match). -/
def assocGet {κ α : Type} [DecidableEq κ] : List (κ × α) → κ → Option α
  | [], _ => none
  | (k, v) :: rest, k' => if k = k' then some v else assocGet rest k'

/-- Document set/overwrite: replace the binding if present, else append. -/
def assocSet {κ α : Type} [DecidableEq κ] : List (κ × α) → κ → α → List (κ × α)
  | [], k', v' => [(k', v')]
  | (k, v) :: rest, k', v' =>
      if k = k' then (k', v') :: rest else (k, v) :: assocSet rest k' v'

/-- Document delete: remove the binding. -/
def assocDel {κ α : Type} [DecidableEq κ] : List (κ × α) → κ → List (κ × α)
  | [], _ => []
  | (k, v) :: rest, k' => if k = k' then rest else (k, v) :: assocDel rest k'

/-- One store access, for the effect trace of a handler. -/
inductive Eff where
  | getProject (pid : String)
  | setProject (pid : String)
  | updateProject (pid : String)
  | queryMessages (pid : String)
  | addMessage (pid : String)
  | getMessage (pid mid : String)
  | updateMessage (pid mid : String)
  | delMessage (pid mid : String)
deriving Repr, DecidableEq

/-- An error response: HTTP status and the `{error}` body message. -/
structure ErrResp where
  status : Nat
  error : String
deriving Repr, DecidableEq

/-- The record shape both the list endpoint and the send endpoint emit per
message: exactly `id`, `senderId`, `content` and the normalized
`timestamp` — no other stored field survives the projection. -/
structure MessageView where
  id : String
  senderId : String
  content : String
  timestamp : Option NormTs
deriving Repr, DecidableEq

/-- The edit endpoint response `{ id, ...updatedDoc.data() }`: the full stored
record, with the stored timestamp emitted as-is (no normalization). -/
structure FullMessage where
  id : String
  senderId : String
  content : String
  timestamp : Option TsValue
  edited : Option Bool
  editedAt : Option TsValue
deriving Repr, DecidableEq

/-- The delete acknowledgement `{ message, messageId }`. -/
structure DeleteAck where
  message : String
  messageId : String
deriving Repr, DecidableEq

/-- The participants endpoint response `{ participants }`. -/
structure ParticipantsResp where
  participants : List String
deriving Repr, DecidableEq

/-- The init endpoint response `{ message, projectId, participants }`. -/
structure InitResp where
  message : String
  projectId : String
  participants : List String
deriving Repr, DecidableEq

deriving instance DecidableEq for Except

/-- Result of running one handler: the store afterwards, the trace of store
accesses it performed, and its response or error. -/
structure HResult (ρ : Type) where
  store : Store
  effs : List Eff
  out : Except ErrResp ρ

/-- The projection both read paths apply per message document:
`{ id, senderId, content, timestamp: normalized }`. -/
def msgViewOf (id : String) (m : MessageRecord) : MessageView :=
  { id := id, senderId := m.senderId, content := m.content,
    timestamp := normalizeTimestampList m.timestamp }

/-- The messages sub-collection of one project, as (message id, document)
pairs, in stored order.  The ordered-scan (`orderBy("timestamp", "asc")`) is
the store collaborator reordering this list; no claim here depends on it. -/
def msgsOf (st : Store) (pid : String) : List (String × MessageRecord) :=
  (st.msgs.filter fun kv => kv.1.1 == pid).map fun kv => (kv.1.2, kv.2)

/-- GET `/projects/:projectId/messages`: validate the id, return `[]` when the
project document does not exist, else list the sub-collection through the
normalizing projection. -/
def listMessagesH (st : Store) (projectId : String) : HResult (List MessageView) :=
  if isBlank projectId then ⟨st, [], .error ⟨400, "Project ID is required"⟩⟩
  else
    match assocGet st.projects projectId with
    | none => ⟨st, [Eff.getProject projectId], .ok []⟩
    | some _ =>
        ⟨st, [Eff.getProject projectId, Eff.queryMessages projectId],
          .ok ((msgsOf st projectId).map fun km => msgViewOf km.1 km.2)⟩

/-- GET `/projects/:projectId/participants`: validate the id, return
`{participants: []}` when the project document does not exist, else the
stored roster (`projectData.participants || []`, always present here). -/
def getParticipantsH (st : Store) (projectId : String) : HResult ParticipantsResp :=
  if isBlank projectId then ⟨st, [], .error ⟨400, "Project ID is required"⟩⟩
  else
    match assocGet st.projects projectId with
    | none => ⟨st, [Eff.getProject projectId], .ok ⟨[]⟩⟩
    | some pd => ⟨st, [Eff.getProject projectId], .ok ⟨pd.participants⟩⟩

/-- The create-or-append roster step of the POST handler: fetch the project;
if absent create it with `participants: [senderId]` (the raw, untrimmed
sender id) and `createdAt: new Date()`; if present and the raw sender id is
not in `participants`, append it. -/
def ensureProjectForSender (st : Store) (projectId senderId : String)
    (now : Int) : Store × List Eff :=
  match assocGet st.projects projectId with
  | none =>
      let fresh : ProjectDoc :=
        { participants := [senderId], createdAt := TsValue.jsDate now,
          description := none }
      ({ st with projects := assocSet st.projects projectId fresh },
       [Eff.getProject projectId, Eff.setProject projectId])
  | some pd =>
      if senderId ∈ pd.participants then
        (st, [Eff.getProject projectId])
      else
        let grown : ProjectDoc :=
          { pd with participants := pd.participants ++ [senderId] }
        ({ st with projects := assocSet st.projects projectId grown },
         [Eff.getProject projectId, Eff.updateProject projectId])

/-- The fallback `savedSnap.data() || {}` of the POST handler, modelled with
undefined fields read back as empty/absent. -/
def emptyRecord : MessageRecord :=
  { senderId := "", content := "", timestamp := none,
    edited := none, editedAt := none }

/-- POST `/projects/:projectId/messages`: validate, ensure the project and
roster, `add` the message with trimmed `senderId`/`content` and a server-side
write-time timestamp (whose store representation on read-back is `storedTs`),
re-read the just-written record, and respond with the normalizing
projection of the read-back. -/
def sendMessageH (st : Store) (projectId senderId content : String)
    (now : Int) (storedTs : TsValue) : HResult MessageView :=
  if isBlank projectId then ⟨st, [], .error ⟨400, "Project ID is required"⟩⟩
  else if isBlank senderId then ⟨st, [], .error ⟨400, "Sender ID is required"⟩⟩
  else if isBlank content then
    ⟨st, [], .error ⟨400, "Message content is required"⟩⟩
  else
    let ens := ensureProjectForSender st projectId senderId now
    let newId := genId ens.1.nextId
    let newMsgForSave : MessageRecord :=
      { senderId := jsTrim senderId, content := jsTrim content,
        timestamp := some storedTs, edited := none, editedAt := none }
    let st2 : Store :=
      { ens.1 with msgs := ens.1.msgs ++ [((projectId, newId), newMsgForSave)],
                   nextId := ens.1.nextId + 1 }
    let savedData := (assocGet st2.msgs (projectId, newId)).getD emptyRecord
    ⟨st2, ens.2 ++ [Eff.addMessage projectId, Eff.getMessage projectId newId],
      .ok { id := newId, senderId := savedData.senderId,
            content := savedData.content,
            timestamp := normalizeTimestampSend savedData.timestamp }⟩

/-- PUT `/projects/:projectId/messages/:messageId`: validate all four fields,
404 when the message document does not exist, 403 when the stored `senderId`
differs from the caller-supplied one, else merge trimmed `content`,
`edited: true` and `editedAt: new Date()` (store representation `editedTs`
on read-back), and respond `{ id, ...updatedDoc.data() }` — the re-read of
the just-updated record, with the stored timestamp emitted unnormalized. -/
def editMessageH (st : Store) (projectId messageId senderId content : String)
    (editedTs : TsValue) : HResult FullMessage :=
  if isBlank projectId then ⟨st, [], .error ⟨400, "Project ID is required"⟩⟩
  else if isBlank messageId then ⟨st, [], .error ⟨400, "Message ID is required"⟩⟩
  else if isBlank senderId then ⟨st, [], .error ⟨400, "Sender ID is required"⟩⟩
  else if isBlank content then
    ⟨st, [], .error ⟨400, "Message content is required"⟩⟩
  else
    match assocGet st.msgs (projectId, messageId) with
    | none =>
        ⟨st, [Eff.getMessage projectId messageId],
          .error ⟨404, "Message not found"⟩⟩
    | some messageData =>
        if messageData.senderId ≠ senderId then
          ⟨st, [Eff.getMessage projectId messageId],
            .error ⟨403, "You can only edit your own messages"⟩⟩
        else
          let updatedMsg : MessageRecord :=
            { messageData with content := jsTrim content,
                               editedAt := some editedTs, edited := some true }
          ⟨{ st with msgs := assocSet st.msgs (projectId, messageId) updatedMsg },
            [Eff.getMessage projectId messageId,
             Eff.updateMessage projectId messageId,
             Eff.getMessage projectId messageId],
            .ok { id := messageId, senderId := updatedMsg.senderId,
                  content := updatedMsg.content,
                  timestamp := updatedMsg.timestamp,
                  edited := updatedMsg.edited, editedAt := updatedMsg.editedAt }⟩

/-- DELETE `/projects/:projectId/messages/:messageId`: validate, 404 when the
message document does not exist, 403 on sender mismatch, else delete the
record and acknowledge with the deleted id. -/
def deleteMessageH (st : Store) (projectId messageId senderId : String) :
    HResult DeleteAck :=
  if isBlank projectId then ⟨st, [], .error ⟨400, "Project ID is required"⟩⟩
  else if isBlank messageId then ⟨st, [], .error ⟨400, "Message ID is required"⟩⟩
  else if isBlank senderId then ⟨st, [], .error ⟨400, "Sender ID is required"⟩⟩
  else
    match assocGet st.msgs (projectId, messageId) with
    | none =>
        ⟨st, [Eff.getMessage projectId messageId],
          .error ⟨404, "Message not found"⟩⟩
    | some messageData =>
        if messageData.senderId ≠ senderId then
          ⟨st, [Eff.getMessage projectId messageId],
            .error ⟨403, "You can only delete your own messages"⟩⟩
        else
          ⟨{ st with msgs := assocDel st.msgs (projectId, messageId) },
            [Eff.getMessage projectId messageId,
             Eff.delMessage projectId messageId],
            .ok { message := "Message deleted successfully",
                  messageId := messageId }⟩

/-- The roster actually installed by the init endpoint:
`participants.length > 0 ? participants : ["user1", "user2", "admin"]`. -/
def effectiveRoster (participants : List String) : List String :=
  if participants.length > 0 then participants else ["user1", "user2", "admin"]

/-- POST `/projects/:projectId/init`: validate the id, then unconditionally
overwrite the project document with the supplied roster (or the fixed
default), a fresh creation time and the fixed description.  A document `set`
does not touch sub-collections, so stored messages survive. -/
def initProjectH (st : Store) (projectId : String)
    (participants : List String) (now : Int) : HResult InitResp :=
  if isBlank projectId then ⟨st, [], .error ⟨400, "Project ID is required"⟩⟩
  else
    let doc : ProjectDoc :=
      { participants := effectiveRoster participants,
        createdAt := TsValue.jsDate now,
        description := some "Test project created via API" }
    ⟨{ st with projects := assocSet st.projects projectId doc },
      [Eff.setProject projectId],
      .ok { message := "Project initialized successfully",
            projectId := projectId,
            participants := effectiveRoster participants }⟩

/-- One inbound operation, carrying the environment-supplied data the real
handler obtains at run time (wall clock, store representation of written
timestamps). -/
inductive Op where
  | send (projectId senderId content : String) (now : Int) (storedTs : TsValue)
  | edit (projectId messageId senderId content : String) (editedTs : TsValue)
  | del (projectId messageId senderId : String)
  | init (projectId : String) (participants : List String) (now : Int)
  | list (projectId : String)
  | parts (projectId : String)

/-- The HTTP status of a handler error, if any. -/
def errStatus {ρ : Type} (r : HResult ρ) : Option Nat :=
  match r.out with
  | .ok _ => none
  | .error e => some e.status

/-- Dispatch one operation: resulting store, effect trace, error status. -/
def stepResult (st : Store) : Op → Store × List Eff × Option Nat
  | .send p s c n ts =>
      let r := sendMessageH st p s c n ts; (r.store, r.effs, errStatus r)
  | .edit p m s c ts =>
      let r := editMessageH st p m s c ts; (r.store, r.effs, errStatus r)
  | .del p m s =>
      let r := deleteMessageH st p m s; (r.store, r.effs, errStatus r)
  | .init p roster n =>
      let r := initProjectH st p roster n; (r.store, r.effs, errStatus r)
  | .list p =>
      let r := listMessagesH st p; (r.store, r.effs, errStatus r)
  | .parts p =>
      let r := getParticipantsH st p; (r.store, r.effs, errStatus r)

/-- The store after one operation. -/
def execOp (st : Store) (op : Op) : Store := (stepResult st op).1

/-- Run a sequence of inbound operations from the empty store. -/
def runOps (ops : List Op) : Store := ops.foldl execOp emptyStore

/-- Some required field of the operation is missing or blank after trimming. -/
def requiredBlank : Op → Prop
  | .send p s c _ _ => isBlank p ∨ isBlank s ∨ isBlank c
  | .edit p m s c _ => isBlank p ∨ isBlank m ∨ isBlank s ∨ isBlank c
  | .del p m s => isBlank p ∨ isBlank m ∨ isBlank s
  | .init p _ _ => isBlank p
  | .list p => isBlank p
  | .parts p => isBlank p

/-- Message lookup, as the edit/delete handlers address a message. -/
def msgLookup (st : Store) (pid mid : String) : Option MessageRecord :=
  assocGet st.msgs (pid, mid)

/-- Modelled from the claim text: append a sender exactly once, leaving the
roster unchanged when the sender is already present. -/
def specAppend (l : List String) (s : String) : List String :=
  if s ∈ l then l else l ++ [s]

/-- A send request whose three required fields pass validation. -/
def sendValid (pid sid content : String) : Prop :=
  ¬ isBlank pid ∧ ¬ isBlank sid ∧ ¬ isBlank content

instance (pid sid content : String) : Decidable (sendValid pid sid content) :=
  inferInstanceAs (Decidable (_ ∧ _ ∧ _))

/-- Modelled from the claim text: the expected participants roster of project
`p` (`none` while the project does not exist), advanced by one operation — a
first successful send creates the roster `[senderId]`, a later successful
send appends the sender exactly once, an init installs its effective roster,
and every other or failing operation leaves the roster as it was. -/
def rosterStep (p : String) (acc : Option (List String)) : Op → Option (List String)
  | .send pid sid content _ _ =>
      if pid = p ∧ sendValid pid sid content then
        match acc with
        | none => some [sid]
        | some l => some (specAppend l sid)
      else acc
  | .init pid roster _ =>
      if pid = p ∧ ¬ isBlank pid then some (effectiveRoster roster) else acc
  | _ => acc

/-- The claim-side roster of project `p` after a whole operation sequence. -/
def rosterSpec (p : String) (ops : List Op) : Option (List String) :=
  ops.foldl (rosterStep p) none

/-- Accumulate, over a sequence, the effective roster installed by the most
recent init of `p` (if any) and the sender ids of the successful sends into
`p` after it (or since the beginning, when no init occurred). -/
def lastInitStep (p : String) (bs : Option (List String) × List String) :
    Op → Option (List String) × List String
  | .send pid sid content _ _ =>
      if pid = p ∧ sendValid pid sid content then (bs.1, bs.2 ++ [sid]) else bs
  | .init pid roster _ =>
      if pid = p ∧ ¬ isBlank pid then (some (effectiveRoster roster), []) else bs
  | _ => bs

/-- The most recent init roster of `p` and the senders into `p` since. -/
def lastInitAndSends (p : String) (ops : List Op) :
    Option (List String) × List String :=
  ops.foldl (lastInitStep p) (none, [])

/-- Fold a list of senders onto a base roster, appending each exactly once in
first-occurrence order. -/
def dedupFrom (base : List String) (senders : List String) : List String :=
  senders.foldl specAppend base

/-- Combine a most-recent-init roster and the senders since into the expected
roster value (`none` when the project was never touched). -/
def combineRoster (bs : Option (List String) × List String) :
    Option (List String) :=
  if bs.1 = none ∧ bs.2 = [] then none
  else some (dedupFrom (bs.1.getD []) bs.2)

/-- Erase the edit markers of a stored message (the fields the list/send
projection drops). -/
def scrubMeta (m : MessageRecord) : MessageRecord :=
  { m with edited := none, editedAt := none }

theorem assocGet_assocSet_self {κ α : Type} [DecidableEq κ]
    (l : List (κ × α)) (k : κ) (v : α) :
    assocGet (assocSet l k v) k = some v := by
  induction l with
  | nil => simp [assocGet, assocSet]
  | cons hd tl ih =>
      obtain ⟨k0, v0⟩ := hd
      by_cases h : k0 = k
      · subst h; simp [assocGet, assocSet]
      · simp [assocGet, assocSet, h, ih]

theorem assocGet_assocSet_ne {κ α : Type} [DecidableEq κ]
    (l : List (κ × α)) (k k' : κ) (v : α) (h : k' ≠ k) :
    assocGet (assocSet l k v) k' = assocGet l k' := by
  have h' : ¬ k = k' := fun hh => h hh.symm
  induction l with
  | nil => simp [assocGet, assocSet, h']
  | cons hd tl ih =>
      obtain ⟨k0, v0⟩ := hd
      by_cases h0 : k0 = k
      · subst h0
        simp [assocGet, assocSet, h']
      · simp only [assocSet, if_neg h0, assocGet]
        by_cases h1 : k0 = k'
        · simp [h1]
        · simp [h1, ih]

theorem assocGet_assocDel_ne {κ α : Type} [DecidableEq κ]
    (l : List (κ × α)) (k k' : κ) (h : k' ≠ k) :
    assocGet (assocDel l k) k' = assocGet l k' := by
  have h' : ¬ k = k' := fun hh => h hh.symm
  induction l with
  | nil => simp [assocDel]
  | cons hd tl ih =>
      obtain ⟨k0, v0⟩ := hd
      by_cases h0 : k0 = k
      · subst h0
        simp [assocDel, assocGet, h']
      · simp only [assocDel, if_neg h0, assocGet]
        by_cases h1 : k0 = k'
        · simp [h1]
        · simp [h1, ih]

theorem assocGet_assocDel_self {κ α : Type} [DecidableEq κ]
    (l : List (κ × α)) (k : κ) (h : (l.map Prod.fst).Nodup) :
    assocGet (assocDel l k) k = none := by
  induction l with
  | nil => simp [assocDel, assocGet]
  | cons hd tl ih =>
      obtain ⟨k0, v0⟩ := hd
      simp only [List.map_cons, List.nodup_cons] at h
      by_cases h0 : k0 = k
      · subst h0
        simp only [assocDel, if_pos rfl]
        -- the head key does not occur in the tail, so lookup misses
        clear ih
        induction tl with
        | nil => simp [assocGet]
        | cons hd2 tl2 ih2 =>
            obtain ⟨k2, v2⟩ := hd2
            simp only [List.map_cons, List.mem_cons, List.nodup_cons] at h
            have hk2 : k2 ≠ k0 := fun hh => h.1 (Or.inl hh.symm)
            simp only [assocGet, if_neg hk2]
            exact ih2 ⟨fun hm => h.1 (Or.inr hm), h.2.2⟩
      · simp only [assocDel, if_neg h0, assocGet, if_neg h0]
        exact ih h.2

theorem assocGet_append_of_none {κ α : Type} [DecidableEq κ]
    (l₁ l₂ : List (κ × α)) (k : κ) (h : assocGet l₁ k = none) :
    assocGet (l₁ ++ l₂) k = assocGet l₂ k := by
  induction l₁ with
  | nil => simp
  | cons hd tl ih =>
      obtain ⟨k0, v0⟩ := hd
      by_cases h0 : k0 = k
      · simp [assocGet, h0] at h
      · simp only [assocGet, if_neg h0] at h
        simp only [List.cons_append, assocGet, if_neg h0]
        exact ih h

/-- The two textually separate copies of the normalization code (in the GET
handler and in the POST handler) compute the same function. -/
theorem normalize_list_eq_send (v : Option TsValue) :
    normalizeTimestampList v = normalizeTimestampSend v := by
  rcases v with _ | ts
  · rfl
  · cases ts <;> rfl

theorem ensure_msgs (st : Store) (p s : String) (n : Int) :
    (ensureProjectForSender st p s n).1.msgs = st.msgs := by
  unfold ensureProjectForSender
  rcases assocGet st.projects p with _ | pd
  · rfl
  · by_cases h : s ∈ pd.participants <;> simp [h]

theorem ensure_nextId (st : Store) (p s : String) (n : Int) :
    (ensureProjectForSender st p s n).1.nextId = st.nextId := by
  unfold ensureProjectForSender
  rcases assocGet st.projects p with _ | pd
  · rfl
  · by_cases h : s ∈ pd.participants <;> simp [h]

theorem ensure_projects_ne (st : Store) (p s : String) (n : Int) (q : String)
    (h : q ≠ p) :
    assocGet (ensureProjectForSender st p s n).1.projects q
      = assocGet st.projects q := by
  unfold ensureProjectForSender
  rcases assocGet st.projects p with _ | pd
  · simpa using assocGet_assocSet_ne st.projects p q _ h
  · by_cases hm : s ∈ pd.participants
    · simp [hm]
    · simpa [hm] using assocGet_assocSet_ne st.projects p q _ h

theorem ensure_participants_self (st : Store) (p s : String) (n : Int) :
    (assocGet (ensureProjectForSender st p s n).1.projects p).map
        ProjectDoc.participants
      = some (match (assocGet st.projects p).map ProjectDoc.participants with
              | none => [s]
              | some l => specAppend l s) := by
  unfold ensureProjectForSender
  rcases hl : assocGet st.projects p with _ | pd
  · simp [assocGet_assocSet_self]
  · by_cases hm : s ∈ pd.participants
    · simp [hm, hl, specAppend]
    · simp [hm, hl, specAppend, assocGet_assocSet_self]

theorem send_blank (st : Store) (p s c : String) (n : Int) (ts : TsValue)
    (h : isBlank p ∨ isBlank s ∨ isBlank c) :
    ∃ msg, sendMessageH st p s c n ts = ⟨st, [], .error ⟨400, msg⟩⟩ := by
  by_cases hp : isBlank p
  · exact ⟨"Project ID is required", by simp [sendMessageH, hp]⟩
  by_cases hs : isBlank s
  · exact ⟨"Sender ID is required", by simp [sendMessageH, hp, hs]⟩
  by_cases hc : isBlank c
  · exact ⟨"Message content is required", by simp [sendMessageH, hp, hs, hc]⟩
  rcases h with h | h | h
  · exact absurd h hp
  · exact absurd h hs
  · exact absurd h hc

theorem edit_blank (st : Store) (p m s c : String) (ts : TsValue)
    (h : isBlank p ∨ isBlank m ∨ isBlank s ∨ isBlank c) :
    ∃ msg, editMessageH st p m s c ts = ⟨st, [], .error ⟨400, msg⟩⟩ := by
  by_cases hp : isBlank p
  · exact ⟨"Project ID is required", by simp [editMessageH, hp]⟩
  by_cases hm : isBlank m
  · exact ⟨"Message ID is required", by simp [editMessageH, hp, hm]⟩
  by_cases hs : isBlank s
  · exact ⟨"Sender ID is required", by simp [editMessageH, hp, hm, hs]⟩
  by_cases hc : isBlank c
  · exact ⟨"Message content is required", by simp [editMessageH, hp, hm, hs, hc]⟩
  rcases h with h | h | h | h
  · exact absurd h hp
  · exact absurd h hm
  · exact absurd h hs
  · exact absurd h hc

theorem delete_blank (st : Store) (p m s : String)
    (h : isBlank p ∨ isBlank m ∨ isBlank s) :
    ∃ msg, deleteMessageH st p m s = ⟨st, [], .error ⟨400, msg⟩⟩ := by
  by_cases hp : isBlank p
  · exact ⟨"Project ID is required", by simp [deleteMessageH, hp]⟩
  by_cases hm : isBlank m
  · exact ⟨"Message ID is required", by simp [deleteMessageH, hp, hm]⟩
  by_cases hs : isBlank s
  · exact ⟨"Sender ID is required", by simp [deleteMessageH, hp, hm, hs]⟩
  rcases h with h | h | h
  · exact absurd h hp
  · exact absurd h hm
  · exact absurd h hs

theorem send_store_projects (st : Store) (p s c : String) (n : Int)
    (ts : TsValue) (hp : ¬ isBlank p) (hs : ¬ isBlank s) (hc : ¬ isBlank c) :
    (sendMessageH st p s c n ts).store.projects
      = (ensureProjectForSender st p s n).1.projects := by
  simp [sendMessageH, hp, hs, hc]

theorem edit_store_projects (st : Store) (p m s c : String) (ts : TsValue) :
    (editMessageH st p m s c ts).store.projects = st.projects := by
  unfold editMessageH
  repeat' split
  all_goals rfl

theorem delete_store_projects (st : Store) (p m s : String) :
    (deleteMessageH st p m s).store.projects = st.projects := by
  unfold deleteMessageH
  repeat' split
  all_goals rfl

theorem list_store (st : Store) (p : String) :
    (listMessagesH st p).store = st := by
  unfold listMessagesH
  repeat' split
  all_goals rfl

theorem parts_store (st : Store) (p : String) :
    (getParticipantsH st p).store = st := by
  unfold getParticipantsH
  repeat' split
  all_goals rfl

theorem init_store_projects (st : Store) (p : String) (roster : List String)
    (n : Int) (hp : ¬ isBlank p) :
    (initProjectH st p roster n).store.projects
      = assocSet st.projects p
          ⟨effectiveRoster roster, TsValue.jsDate n,
           some "Test project created via API"⟩ := by
  simp [initProjectH, hp]

/-- One operation advances the stored roster of each project exactly as the
claim-side `rosterStep` describes. -/
theorem execOp_roster (p : String) (st : Store) (op : Op) :
    (assocGet (execOp st op).projects p).map ProjectDoc.participants
      = rosterStep p ((assocGet st.projects p).map ProjectDoc.participants) op := by
  cases op with
  | send pid sid content n ts =>
      by_cases hp : isBlank pid
      · obtain ⟨msg, hmsg⟩ := send_blank st pid sid content n ts (Or.inl hp)
        simp [execOp, stepResult, hmsg, rosterStep, sendValid, hp]
      by_cases hs : isBlank sid
      · obtain ⟨msg, hmsg⟩ := send_blank st pid sid content n ts (Or.inr (Or.inl hs))
        simp [execOp, stepResult, hmsg, rosterStep, sendValid, hs]
      by_cases hc : isBlank content
      · obtain ⟨msg, hmsg⟩ :=
          send_blank st pid sid content n ts (Or.inr (Or.inr hc))
        simp [execOp, stepResult, hmsg, rosterStep, sendValid, hc]
      have hproj : (execOp st (Op.send pid sid content n ts)).projects
          = (ensureProjectForSender st pid sid n).1.projects := by
        simp only [execOp, stepResult]
        exact send_store_projects st pid sid content n ts hp hs hc
      by_cases hpq : pid = p
      · subst hpq
        rw [hproj, ensure_participants_self]
        rcases (assocGet st.projects pid).map ProjectDoc.participants with _ | l
        · simp [rosterStep, sendValid, hp, hs, hc]
        · simp [rosterStep, sendValid, hp, hs, hc]
      · rw [hproj, ensure_projects_ne st pid sid n p (fun hh => hpq hh.symm)]
        simp [rosterStep, hpq]
  | edit pid mid sid content ts =>
      simp only [execOp, stepResult]
      rw [edit_store_projects]
      simp [rosterStep]
  | del pid mid sid =>
      simp only [execOp, stepResult]
      rw [delete_store_projects]
      simp [rosterStep]
  | init pid roster n =>
      by_cases hp : isBlank pid
      · simp [execOp, stepResult, initProjectH, hp, rosterStep]
      · by_cases hpq : pid = p
        · subst hpq
          simp only [execOp, stepResult]
          rw [init_store_projects st pid roster n hp]
          simp [rosterStep, hp, assocGet_assocSet_self]
        · simp only [execOp, stepResult]
          rw [init_store_projects st pid roster n hp,
              assocGet_assocSet_ne st.projects pid p _ (fun hh => hpq hh.symm)]
          simp [rosterStep, hpq]
  | list pid =>
      simp only [execOp, stepResult]
      rw [list_store]
      simp [rosterStep]
  | parts pid =>
      simp only [execOp, stepResult]
      rw [parts_store]
      simp [rosterStep]

theorem runOps_roster_aux (p : String) (ops : List Op) (st : Store) :
    (assocGet (ops.foldl execOp st).projects p).map ProjectDoc.participants
      = ops.foldl (rosterStep p)
          ((assocGet st.projects p).map ProjectDoc.participants) := by
  induction ops generalizing st with
  | nil => rfl
  | cons op rest ih =>
      simp only [List.foldl_cons]
      rw [ih, execOp_roster]

/-- After any operation sequence from the empty store, the stored roster of
every project is exactly the claim-side fold. -/
theorem runOps_roster (p : String) (ops : List Op) :
    (assocGet (runOps ops).projects p).map ProjectDoc.participants
      = rosterSpec p ops := by
  have h := runOps_roster_aux p ops emptyStore
  simpa [runOps, rosterSpec, emptyStore, assocGet] using h

theorem combine_lastInitStep (p : String)
    (bs : Option (List String) × List String) (op : Op) :
    combineRoster (lastInitStep p bs op)
      = rosterStep p (combineRoster bs) op := by
  obtain ⟨b, ss⟩ := bs
  cases op with
  | send pid sid content n ts =>
      by_cases hcond : pid = p ∧ sendValid pid sid content
      · simp only [lastInitStep, if_pos hcond, rosterStep, if_pos hcond]
        by_cases hb : b = none ∧ ss = []
        · obtain ⟨h1, h2⟩ := hb
          subst h1; subst h2
          simp [combineRoster, dedupFrom, specAppend]
        · have hb2 : ¬ (b = none ∧ ss ++ [sid] = []) := by simp
          simp only [combineRoster, if_neg hb, if_neg hb2]
          simp [dedupFrom, List.foldl_append]
      · simp [lastInitStep, hcond, rosterStep]
  | init pid roster n =>
      by_cases hcond : pid = p ∧ ¬ isBlank pid
      · obtain ⟨hpq, hbp⟩ := hcond
        subst hpq
        simp [lastInitStep, hbp, rosterStep, combineRoster, dedupFrom]
      · simp [lastInitStep, hcond, rosterStep]
  | edit pid mid sid content ts => rfl
  | del pid mid sid => rfl
  | list pid => rfl
  | parts pid => rfl

theorem combine_fold (p : String) (ops : List Op) :
    ∀ bs, combineRoster (ops.foldl (lastInitStep p) bs)
      = ops.foldl (rosterStep p) (combineRoster bs) := by
  induction ops with
  | nil => intro bs; rfl
  | cons op rest ih =>
      intro bs
      simp only [List.foldl_cons]
      rw [ih, combine_lastInitStep]

/-- The claim-side roster fold decomposes into the roster of the most recent
init and the deduplicated senders since. -/
theorem rosterSpec_decomp (p : String) (ops : List Op) :
    rosterSpec p ops = combineRoster (lastInitAndSends p ops) := by
  rw [lastInitAndSends, combine_fold]
  rfl

theorem mem_specAppend (x s : String) (l : List String) :
    x ∈ specAppend l s ↔ x ∈ l ∨ x = s := by
  unfold specAppend
  by_cases h : s ∈ l
  · simp only [if_pos h]
    exact ⟨Or.inl, fun hh => hh.elim id fun he => he ▸ h⟩
  · simp [if_neg h]

theorem mem_dedupFrom (x : String) (base senders : List String) :
    x ∈ dedupFrom base senders ↔ x ∈ base ∨ x ∈ senders := by
  induction senders generalizing base with
  | nil => simp [dedupFrom]
  | cons s rest ih =>
      have : dedupFrom base (s :: rest) = dedupFrom (specAppend base s) rest := rfl
      rw [this, ih, mem_specAppend]
      simp [List.mem_cons]
      tauto

theorem nodup_specAppend (l : List String) (s : String) (h : l.Nodup) :
    (specAppend l s).Nodup := by
  unfold specAppend
  by_cases hm : s ∈ l
  · simpa [hm]
  · simp [hm, List.nodup_append, h]

theorem nodup_dedupFrom (base senders : List String) (h : base.Nodup) :
    (dedupFrom base senders).Nodup := by
  induction senders generalizing base with
  | nil => simpa [dedupFrom]
  | cons s rest ih =>
      have : dedupFrom base (s :: rest) = dedupFrom (specAppend base s) rest := rfl
      rw [this]
      exact ih _ (nodup_specAppend _ _ h)

theorem lastInit_fst_nodup (p : String) (ops : List Op)
    (hinit : ∀ pid roster n, Op.init pid roster n ∈ ops →
      (effectiveRoster roster).Nodup) :
    ∀ bs, (∀ l, bs.1 = some l → l.Nodup) →
      ∀ l, (ops.foldl (lastInitStep p) bs).1 = some l → l.Nodup := by
  induction ops with
  | nil => intro bs hbs l hl; exact hbs l hl
  | cons op rest ih =>
      intro bs hbs l hl
      have hrest : ∀ pid roster n, Op.init pid roster n ∈ rest →
          (effectiveRoster roster).Nodup :=
        fun pid roster n hm => hinit pid roster n (List.mem_cons_of_mem _ hm)
      refine ih hrest (lastInitStep p bs op) ?_ l (by simpa using hl)
      intro l' hl'
      cases op with
      | send pid sid content n ts =>
          by_cases hcond : pid = p ∧ sendValid pid sid content
          · simp only [lastInitStep, if_pos hcond] at hl'
            exact hbs l' hl'
          · simp only [lastInitStep, if_neg hcond] at hl'
            exact hbs l' hl'
      | init pid roster n =>
          by_cases hcond : pid = p ∧ ¬ isBlank pid
          · simp only [lastInitStep, if_pos hcond] at hl'
            cases hl'
            exact hinit pid roster n (List.mem_cons_self _ _)
          · simp only [lastInitStep, if_neg hcond] at hl'
            exact hbs l' hl'
      | edit pid mid sid content ts => exact hbs l' hl'
      | del pid mid sid => exact hbs l' hl'
      | list pid => exact hbs l' hl'
      | parts pid => exact hbs l' hl'

/-- C1 (amended): after any sequence of operations from the empty store, a
project's stored participants list is exactly the claim's roster fold: the
roster installed by the most recent explicit init (the supplied list, or the
fixed default when that list is empty), extended, in first-send order and
exactly once each, by the senderId values of the successful sends into the
project since that init (or since the beginning when no init occurred); the
first send under an unseen projectId yields `[senderId]`.  Provided every
explicitly supplied init roster is itself duplicate-free, the resulting list
is duplicate-free and its members are exactly the last-init roster members
together with the senders since. -/
theorem c1_roster_correct (ops : List Op) (p : String)
    (hinit : ∀ pid roster n, Op.init pid roster n ∈ ops →
      (effectiveRoster roster).Nodup) :
    (assocGet (runOps ops).projects p).map ProjectDoc.participants
        = rosterSpec p ops
    ∧ rosterSpec p ops = combineRoster (lastInitAndSends p ops)
    ∧ ∀ l, rosterSpec p ops = some l →
        l.Nodup ∧ ∀ x, x ∈ l ↔
          (x ∈ (lastInitAndSends p ops).1.getD []
            ∨ x ∈ (lastInitAndSends p ops).2) := by
  refine ⟨runOps_roster p ops, rosterSpec_decomp p ops, ?_⟩
  intro l hl
  rw [rosterSpec_decomp] at hl
  unfold combineRoster at hl
  by_cases hb : (lastInitAndSends p ops).1 = none ∧ (lastInitAndSends p ops).2 = []
  · rw [if_pos hb] at hl
    cases hl
  · rw [if_neg hb] at hl
    have hleq : l = dedupFrom ((lastInitAndSends p ops).1.getD [])
        (lastInitAndSends p ops).2 := (Option.some.inj hl).symm
    have hbase : ((lastInitAndSends p ops).1.getD []).Nodup := by
      rcases hfst : (lastInitAndSends p ops).1 with _ | r
      · simp
      · have := lastInit_fst_nodup p ops hinit (none, [])
          (by intro l' hl'; cases hl') r
        simp only [hfst, Option.getD_some]
        exact this (by rw [← hfst]; rfl)
    constructor
    · rw [hleq]
      exact nodup_dedupFrom _ _ hbase
    · intro x
      rw [hleq]
      exact mem_dedupFrom x _ _

/-- C1 counterexample to the claim as stated: after the successful sequence
[send from "a" into "p", init of "p" with roster ["b", "b"]], the stored
participants list is ["b", "b"] — it contains a duplicate, and it does not
contain the sender "a" even though "a" successfully sent into the project. -/
theorem c1_cex :
    (assocGet (runOps [Op.send "p" "a" "hi" 0 TsValue.other,
                       Op.init "p" ["b", "b"] 0]).projects "p").map
        ProjectDoc.participants = some ["b", "b"]
    ∧ ¬ (["b", "b"] : List String).Nodup
    ∧ "a" ∉ (["b", "b"] : List String) := by decide

/-- C1 witness: the amended theorem applied to a concrete sequence. -/
theorem c1_witness :
    (assocGet (runOps [Op.send "p" "alice" "hi" 0 TsValue.other,
                       Op.init "p" ["b"] 5,
                       Op.send "p" "carol" "yo" 6 TsValue.other,
                       Op.send "p" "carol" "again" 7 TsValue.other]).projects
        "p").map ProjectDoc.participants = some ["b", "carol"] := by
  have h := c1_roster_correct
    [Op.send "p" "alice" "hi" 0 TsValue.other,
     Op.init "p" ["b"] 5,
     Op.send "p" "carol" "yo" 6 TsValue.other,
     Op.send "p" "carol" "again" 7 TsValue.other] "p"
    (by
      intro pid roster n hm
      simp only [List.mem_cons, List.not_mem_nil, or_false] at hm
      rcases hm with h1 | h1 | h1 | h1 <;> (cases h1; try decide))
  rw [h.1]
  decide

/-- C3 (amended): the normalization maps each accepted shape to the canonical
one — `{_seconds, _nanoseconds}` passes through unchanged, numeric
`{seconds, nanoseconds}` is renamed, a native date with nonnegative epoch
milliseconds t becomes `{_seconds: floor(t/1000), _nanoseconds:
(t mod 1000) * 1000000}`, and a missing timestamp normalizes to an explicit
null; for a date the code computes with the JavaScript truncating remainder,
which agrees with the mathematical mod only for nonnegative t. -/
theorem c3_normalization_cases :
    normalizeTimestampList none = none
    ∧ (∀ s ns, normalizeTimestampList (some (TsValue.fsTs s ns)) = some ⟨s, ns⟩)
    ∧ (∀ s ns, normalizeTimestampList (some (TsValue.rawTs s ns)) = some ⟨s, ns⟩)
    ∧ (∀ t : Int, 0 ≤ t → normalizeTimestampList (some (TsValue.jsDate t))
        = some ⟨Int.fdiv t 1000, Int.emod t 1000 * 1000000⟩)
    ∧ (∀ t : Int, normalizeTimestampList (some (TsValue.jsDate t))
        = some ⟨jsFloorDiv t 1000, jsRem t 1000 * 1000000⟩)
    ∧ normalizeTimestampList (some TsValue.other) = none := by
  refine ⟨rfl, fun s ns => rfl, fun s ns => rfl, ?_, fun t => rfl, rfl⟩
  intro t ht
  have hmod : Int.tmod t 1000 = Int.emod t 1000 := by
    rw [Int.tmod_eq_emod ht (by norm_num)]
    rfl
  simp [normalizeTimestampList, jsFloorDiv, jsRem, hmod]

/-- C3 counterexample to the claim as stated: for a native date with negative
epoch milliseconds (t = -1500, i.e. 1.5 seconds before the epoch) the code
emits `_nanoseconds = -500000000` — the JavaScript truncating remainder —
whereas the claimed formula `(t mod 1000) * 1000000` gives +500000000. -/
theorem c3_cex :
    normalizeTimestampList (some (TsValue.jsDate (-1500)))
        = some ⟨-2, -500000000⟩
    ∧ Int.fdiv (-1500) 1000 = -2
    ∧ Int.emod (-1500) 1000 * 1000000 = 500000000
    ∧ ((-500000000 : Int) ≠ 500000000) := by decide

/-- C3 witness: the nonnegative-date case of the amended theorem at
t = 1500. -/
theorem c3_witness :
    (0 : Int) ≤ 1500
    ∧ normalizeTimestampList (some (TsValue.jsDate 1500))
        = some ⟨Int.fdiv 1500 1000, Int.emod 1500 1000 * 1000000⟩ :=
  ⟨by decide, c3_normalization_cases.2.2.2.1 1500 (by decide)⟩

/-- C6: for a projectId that does not exist in the store, listMessages
returns an empty array and getParticipants returns an empty participants
list, both with success status (one project read, no error, store
unchanged) — absence is never a 404 on these read paths. -/
theorem c6_absent_project (st : Store) (pid : String) (hp : ¬ isBlank pid)
    (habs : assocGet st.projects pid = none) :
    listMessagesH st pid = ⟨st, [Eff.getProject pid], .ok []⟩
    ∧ getParticipantsH st pid = ⟨st, [Eff.getProject pid], .ok ⟨[]⟩⟩ := by
  constructor
  · simp [listMessagesH, hp, habs]
  · simp [getParticipantsH, hp, habs]

/-- C6 witness: the theorem at the empty store and project id "ghost". -/
theorem c6_witness :
    listMessagesH emptyStore "ghost"
        = ⟨emptyStore, [Eff.getProject "ghost"], .ok []⟩
    ∧ getParticipantsH emptyStore "ghost"
        = ⟨emptyStore, [Eff.getProject "ghost"], .ok ⟨[]⟩⟩ :=
  c6_absent_project emptyStore "ghost" (by decide) (by decide)

/-- C7: whenever a required field of an operation is missing or blank after
trimming, the operation fails with a 400 validation error, the store is
unchanged, and the effect trace is empty — no store access of any kind
happens on that request. -/
theorem c7_validation_before_store (st : Store) (op : Op)
    (h : requiredBlank op) :
    stepResult st op = (st, [], some 400) := by
  cases op with
  | send p s c n ts =>
      obtain ⟨msg, hmsg⟩ := send_blank st p s c n ts h
      simp [stepResult, hmsg, errStatus]
  | edit p m s c ts =>
      obtain ⟨msg, hmsg⟩ := edit_blank st p m s c ts h
      simp [stepResult, hmsg, errStatus]
  | del p m s =>
      obtain ⟨msg, hmsg⟩ := delete_blank st p m s h
      simp [stepResult, hmsg, errStatus]
  | init p roster n =>
      have hp : isBlank p := h
      simp [stepResult, initProjectH, hp, errStatus]
  | list p =>
      have hp : isBlank p := h
      simp [stepResult, listMessagesH, hp, errStatus]
  | parts p =>
      have hp : isBlank p := h
      simp [stepResult, getParticipantsH, hp, errStatus]

/-- C7 witness: a send with a whitespace-only senderId at the empty store. -/
theorem c7_witness :
    stepResult emptyStore (Op.send "p" "   " "hi" 0 TsValue.other)
      = (emptyStore, [], some 400) :=
  c7_validation_before_store emptyStore _ (Or.inr (Or.inl (by decide)))

/-- C9: the list/send projection emits exactly id, senderId, content and the
normalized timestamp — it is invariant under the stored `edited`/`editedAt`
markers, a message updated by an owner edit projects to the old view with
only `content` replaced, and scrubbing the edit markers of every stored
message leaves the entire listMessages response unchanged, so an edit is
observable in these responses only through the content text. -/
theorem c9_projection :
    (∀ id m e ea,
        msgViewOf id { m with edited := e, editedAt := ea } = msgViewOf id m)
    ∧ (∀ id m c ets,
        msgViewOf id
            { m with content := c, edited := some true, editedAt := some ets }
          = { msgViewOf id m with content := c })
    ∧ ∀ st pid,
        (listMessagesH
            { st with msgs := st.msgs.map fun kv => (kv.1, scrubMeta kv.2) }
            pid).out
          = (listMessagesH st pid).out := by
  refine ⟨fun id m e ea => rfl, fun id m c ets => rfl, ?_⟩
  intro st pid
  unfold listMessagesH
  by_cases hp : isBlank pid
  · simp [hp]
  · simp only [if_neg hp]
    rcases hpr : assocGet st.projects pid with _ | pd
    · simp [hpr]
    · simp only [hpr]
      unfold msgsOf
      simp only [List.filter_map, List.map_map]
      rfl

/-- C2 (amended): the two normalization copies in listMessages and
sendMessage compute the identical function, so those two endpoints emit
bit-exact equal timestamp values for the same stored message; editMessage,
however, returns the stored timestamp without normalization, so its emission
coincides with the canonical one exactly when the stored value is already in
the canonical `{_seconds, _nanoseconds}` shape (or absent). -/
theorem c2_normalization_agreement :
    (∀ v, normalizeTimestampList v = normalizeTimestampSend v)
    ∧ (∀ v : Option TsValue,
        (v = none ∨ ∃ s ns, v = some (TsValue.fsTs s ns)) →
          emitNorm (normalizeTimestampList v) = v) := by
  refine ⟨normalize_list_eq_send, ?_⟩
  rintro v (rfl | ⟨s, ns, rfl⟩) <;> rfl

/-- C2 counterexample to the claim as stated: store a message whose stored
timestamp shape is the numeric `{seconds, nanoseconds}` pair; listMessages
emits the canonical `{_seconds: 5, _nanoseconds: 7}` object, but the record
returned by editMessage for the same message carries the raw stored shape,
which is not the canonical object. -/
theorem c2_cex :
    (editMessageH
        (sendMessageH emptyStore "p" "a" "hello" 0 (TsValue.rawTs 5 7)).store
        "p" "0" "a" "yo" (TsValue.jsDate 9)).out
      = Except.ok { id := "0", senderId := "a", content := "yo",
                    timestamp := some (TsValue.rawTs 5 7),
                    edited := some true, editedAt := some (TsValue.jsDate 9) }
    ∧ (listMessagesH
        (sendMessageH emptyStore "p" "a" "hello" 0 (TsValue.rawTs 5 7)).store
        "p").out
      = Except.ok [{ id := "0", senderId := "a", content := "hello",
                     timestamp := some ⟨5, 7⟩ }]
    ∧ emitNorm (some ⟨5, 7⟩) = some (TsValue.fsTs 5 7)
    ∧ some (TsValue.rawTs 5 7) ≠ some (TsValue.fsTs 5 7) := by decide

/-- C2 witness: the amended theorem at a date value and at a canonical
stored value. -/
theorem c2_witness :
    normalizeTimestampList (some (TsValue.jsDate 250))
        = normalizeTimestampSend (some (TsValue.jsDate 250))
    ∧ emitNorm (normalizeTimestampList (some (TsValue.fsTs 1 2)))
        = some (TsValue.fsTs 1 2) :=
  ⟨c2_normalization_agreement.1 (some (TsValue.jsDate 250)),
   c2_normalization_agreement.2 (some (TsValue.fsTs 1 2))
     (Or.inr ⟨1, 2, rfl⟩)⟩

/-- C5: a successful owner edit stores only the trimmed content and the edit
markers (`edited = true`, `editedAt = now`), leaves `senderId` and the
original creation timestamp — and every other message and all project
documents — unchanged, and returns the full updated record. -/
theorem c5_edit_frame (st : Store) (pid mid sid content : String)
    (ets : TsValue) (m : MessageRecord)
    (hp : ¬ isBlank pid) (hm : ¬ isBlank mid) (hs : ¬ isBlank sid)
    (hc : ¬ isBlank content)
    (hfound : msgLookup st pid mid = some m) (hown : m.senderId = sid) :
    (editMessageH st pid mid sid content ets).out
      = .ok { id := mid, senderId := m.senderId, content := jsTrim content,
              timestamp := m.timestamp, edited := some true,
              editedAt := some ets }
    ∧ msgLookup (editMessageH st pid mid sid content ets).store pid mid
      = some { m with content := jsTrim content,
                      edited := some true,
                      editedAt := some ets }
    ∧ (editMessageH st pid mid sid content ets).store.projects = st.projects
    ∧ (editMessageH st pid mid sid content ets).store.nextId = st.nextId
    ∧ ∀ k, k ≠ (pid, mid) →
        assocGet (editMessageH st pid mid sid content ets).store.msgs k
          = assocGet st.msgs k := by
  unfold msgLookup at hfound
  have hne : ¬ m.senderId ≠ sid := by simp [hown]
  unfold msgLookup editMessageH
  simp only [if_neg hp, if_neg hm, if_neg hs, if_neg hc, hfound, if_neg hne]
  refine ⟨trivial, ?_, trivial, trivial, ?_⟩
  · exact assocGet_assocSet_self st.msgs (pid, mid) _
  · intro k hk
    exact assocGet_assocSet_ne st.msgs (pid, mid) k _ hk

/-- C5 witness: the theorem at a one-message store. -/
theorem c5_witness :
    (editMessageH
        ⟨[("p", ⟨["bob"], TsValue.jsDate 0, none⟩)],
         [(("p", "m1"), ⟨"bob", "hi", some (TsValue.fsTs 1 2), none, none⟩)],
         1⟩
        "p" "m1" "bob" " new " (TsValue.jsDate 5)).out
      = .ok { id := "m1", senderId := "bob", content := "new",
              timestamp := some (TsValue.fsTs 1 2), edited := some true,
              editedAt := some (TsValue.jsDate 5) } := by
  have h := c5_edit_frame
    ⟨[("p", ⟨["bob"], TsValue.jsDate 0, none⟩)],
     [(("p", "m1"), ⟨"bob", "hi", some (TsValue.fsTs 1 2), none, none⟩)], 1⟩
    "p" "m1" "bob" " new " (TsValue.jsDate 5)
    ⟨"bob", "hi", some (TsValue.fsTs 1 2), none, none⟩
    (by decide) (by decide) (by decide) (by decide) (by decide) (by decide)
  exact h.1

/-- C4: with valid fields (and the store-guaranteed uniqueness of message
document keys), editMessage and deleteMessage fail 404 exactly when the
addressed message does not exist, fail 403 exactly when it exists with a
stored senderId different from the caller's, leave the store unchanged on
every failure, and a successful delete removes the record, acknowledges with
the deleted messageId, and makes an immediate repeat delete return 404. -/
theorem c4_edit_delete_errors (st : Store) (pid mid sid content : String)
    (ets : TsValue)
    (hp : ¬ isBlank pid) (hm : ¬ isBlank mid) (hs : ¬ isBlank sid)
    (hc : ¬ isBlank content)
    (hkeys : (st.msgs.map Prod.fst).Nodup) :
    (msgLookup st pid mid = none ↔
        (editMessageH st pid mid sid content ets).out
          = .error ⟨404, "Message not found"⟩)
    ∧ (msgLookup st pid mid = none ↔
        (deleteMessageH st pid mid sid).out
          = .error ⟨404, "Message not found"⟩)
    ∧ ((∃ m, msgLookup st pid mid = some m ∧ m.senderId ≠ sid) ↔
        (editMessageH st pid mid sid content ets).out
          = .error ⟨403, "You can only edit your own messages"⟩)
    ∧ ((∃ m, msgLookup st pid mid = some m ∧ m.senderId ≠ sid) ↔
        (deleteMessageH st pid mid sid).out
          = .error ⟨403, "You can only delete your own messages"⟩)
    ∧ (∀ er, (editMessageH st pid mid sid content ets).out = .error er →
        (editMessageH st pid mid sid content ets).store = st)
    ∧ (∀ er, (deleteMessageH st pid mid sid).out = .error er →
        (deleteMessageH st pid mid sid).store = st)
    ∧ (∀ ack, (deleteMessageH st pid mid sid).out = .ok ack →
        ack = ⟨"Message deleted successfully", mid⟩
        ∧ msgLookup (deleteMessageH st pid mid sid).store pid mid = none
        ∧ (deleteMessageH (deleteMessageH st pid mid sid).store
            pid mid sid).out = .error ⟨404, "Message not found"⟩) := by
  rcases hlook : assocGet st.msgs (pid, mid) with _ | m
  · have hed : editMessageH st pid mid sid content ets
        = ⟨st, [Eff.getMessage pid mid], .error ⟨404, "Message not found"⟩⟩ := by
      unfold editMessageH
      simp only [if_neg hp, if_neg hm, if_neg hs, if_neg hc, hlook]
    have hdel : deleteMessageH st pid mid sid
        = ⟨st, [Eff.getMessage pid mid], .error ⟨404, "Message not found"⟩⟩ := by
      unfold deleteMessageH
      simp only [if_neg hp, if_neg hm, if_neg hs, hlook]
    simp [msgLookup, hlook, hed, hdel]
  · by_cases hsid : m.senderId = sid
    · have hne : ¬ m.senderId ≠ sid := by simp [hsid]
      have hed : (editMessageH st pid mid sid content ets).out
          = .ok { id := mid, senderId := m.senderId,
                  content := jsTrim content, timestamp := m.timestamp,
                  edited := some true, editedAt := some ets } := by
        unfold editMessageH
        simp only [if_neg hp, if_neg hm, if_neg hs, if_neg hc, hlook,
                   if_neg hne]
      have hdel : deleteMessageH st pid mid sid
          = ⟨{ st with msgs := assocDel st.msgs (pid, mid) },
             [Eff.getMessage pid mid, Eff.delMessage pid mid],
             .ok ⟨"Message deleted successfully", mid⟩⟩ := by
        unfold deleteMessageH
        simp only [if_neg hp, if_neg hm, if_neg hs, hlook, if_neg hne]
      have hgone : assocGet (assocDel st.msgs (pid, mid)) (pid, mid) = none :=
        assocGet_assocDel_self st.msgs (pid, mid) hkeys
      have hredel : (deleteMessageH
          { st with msgs := assocDel st.msgs (pid, mid) } pid mid sid).out
          = .error ⟨404, "Message not found"⟩ := by
        unfold deleteMessageH
        simp only [if_neg hp, if_neg hm, if_neg hs]
        simp [hgone]
      simp [msgLookup, hlook, hed, hdel, hsid, hgone, hredel]
    · have hed : editMessageH st pid mid sid content ets
          = ⟨st, [Eff.getMessage pid mid],
             .error ⟨403, "You can only edit your own messages"⟩⟩ := by
        unfold editMessageH
        simp only [if_neg hp, if_neg hm, if_neg hs, if_neg hc, hlook,
                   if_pos hsid]
      have hdel : deleteMessageH st pid mid sid
          = ⟨st, [Eff.getMessage pid mid],
             .error ⟨403, "You can only delete your own messages"⟩⟩ := by
        unfold deleteMessageH
        simp only [if_neg hp, if_neg hm, if_neg hs, hlook, if_pos hsid]
      simp [msgLookup, hlook, hed, hdel, hsid]

/-- C4 witness: owner deletes the only message of a one-message store; a
repeat delete of the same id returns 404. -/
theorem c4_witness :
    (deleteMessageH
        ⟨[("p", ⟨["bob"], TsValue.jsDate 0, none⟩)],
         [(("p", "m1"), ⟨"bob", "hi", some (TsValue.fsTs 1 2), none, none⟩)],
         1⟩ "p" "m1" "bob").out
      = .ok ⟨"Message deleted successfully", "m1"⟩
    ∧ (deleteMessageH
        (deleteMessageH
          ⟨[("p", ⟨["bob"], TsValue.jsDate 0, none⟩)],
           [(("p", "m1"), ⟨"bob", "hi", some (TsValue.fsTs 1 2), none, none⟩)],
           1⟩ "p" "m1" "bob").store "p" "m1" "bob").out
      = .error ⟨404, "Message not found"⟩ := by
  have h := c4_edit_delete_errors
    ⟨[("p", ⟨["bob"], TsValue.jsDate 0, none⟩)],
     [(("p", "m1"), ⟨"bob", "hi", some (TsValue.fsTs 1 2), none, none⟩)], 1⟩
    "p" "m1" "bob" "x" TsValue.other
    (by decide) (by decide) (by decide) (by decide) (by decide)
  have hok := h.2.2.2.2.2.2 ⟨"Message deleted successfully", "m1"⟩ (by decide)
  exact ⟨by decide, hok.2.2⟩

/-- The full result of a valid send: roster ensured, message appended under a
fresh store-generated id with trimmed fields, and the response built from the
read-back of the appended record. -/
theorem send_result_of_valid (st : Store) (pid sid content : String)
    (now : Int) (ts : TsValue)
    (hp : ¬ isBlank pid) (hs : ¬ isBlank sid) (hc : ¬ isBlank content)
    (hfresh : assocGet st.msgs (pid, genId st.nextId) = none) :
    sendMessageH st pid sid content now ts
      = ⟨{ (ensureProjectForSender st pid sid now).1 with
             msgs := st.msgs ++ [((pid, genId st.nextId),
               ⟨jsTrim sid, jsTrim content, some ts, none, none⟩)],
             nextId := st.nextId + 1 },
         (ensureProjectForSender st pid sid now).2
           ++ [Eff.addMessage pid, Eff.getMessage pid (genId st.nextId)],
         .ok { id := genId st.nextId, senderId := jsTrim sid,
               content := jsTrim content,
               timestamp := normalizeTimestampSend (some ts) }⟩ := by
  unfold sendMessageH
  simp only [if_neg hp, if_neg hs, if_neg hc, ensure_msgs, ensure_nextId]
  rw [assocGet_append_of_none st.msgs _ _ hfresh]
  simp [assocGet]

/-- C8: a valid send succeeds with a response built from the re-read of the
just-written record (the read-back appears in the effect trace), and an
immediate listMessages on the same project includes that very response
record — in particular with a bit-identical normalized timestamp. -/
theorem c8_send_list_roundtrip (st : Store) (pid sid content : String)
    (now : Int) (ts : TsValue)
    (hp : ¬ isBlank pid) (hs : ¬ isBlank sid) (hc : ¬ isBlank content)
    (hfresh : assocGet st.msgs (pid, genId st.nextId) = none) :
    ∃ v, (sendMessageH st pid sid content now ts).out = .ok v
      ∧ v.timestamp = normalizeTimestampList (some ts)
      ∧ Eff.getMessage pid (genId st.nextId)
          ∈ (sendMessageH st pid sid content now ts).effs
      ∧ ∃ vs, (listMessagesH (sendMessageH st pid sid content now ts).store
            pid).out = .ok vs
          ∧ v ∈ vs := by
  have hres := send_result_of_valid st pid sid content now ts hp hs hc hfresh
  refine ⟨{ id := genId st.nextId, senderId := jsTrim sid,
            content := jsTrim content,
            timestamp := normalizeTimestampSend (some ts) }, ?_, ?_, ?_, ?_⟩
  · rw [hres]
  · exact (normalize_list_eq_send (some ts)).symm
  · rw [hres]
    simp
  · rw [hres]
    have hpd : ∃ pd, assocGet (ensureProjectForSender st pid sid now).1.projects
        pid = some pd := by
      have h := ensure_participants_self st pid sid now
      rcases hget : assocGet (ensureProjectForSender st pid sid now).1.projects
          pid with _ | pd
      · rw [hget] at h
        cases h
      · exact ⟨pd, rfl⟩
    obtain ⟨pd, hpd⟩ := hpd
    unfold listMessagesH
    simp only [if_neg hp]
    have hproj : ({ (ensureProjectForSender st pid sid now).1 with
        msgs := st.msgs ++ [((pid, genId st.nextId),
          ⟨jsTrim sid, jsTrim content, some ts, none, none⟩)],
        nextId := st.nextId + 1 } : Store).projects
        = (ensureProjectForSender st pid sid now).1.projects := rfl
    rw [hproj, hpd]
    refine ⟨_, rfl, ?_⟩
    have hmem : ((pid, genId st.nextId),
        (⟨jsTrim sid, jsTrim content, some ts, none, none⟩ : MessageRecord))
        ∈ ({ (ensureProjectForSender st pid sid now).1 with
             msgs := st.msgs ++ [((pid, genId st.nextId),
               ⟨jsTrim sid, jsTrim content, some ts, none, none⟩)],
             nextId := st.nextId + 1 } : Store).msgs := by
      simp
    have hmem2 : (genId st.nextId,
        (⟨jsTrim sid, jsTrim content, some ts, none, none⟩ : MessageRecord))
        ∈ msgsOf { (ensureProjectForSender st pid sid now).1 with
             msgs := st.msgs ++ [((pid, genId st.nextId),
               ⟨jsTrim sid, jsTrim content, some ts, none, none⟩)],
             nextId := st.nextId + 1 } pid := by
      unfold msgsOf
      exact List.mem_map_of_mem _ (List.mem_filter.mpr ⟨hmem, by simp⟩)
    have hview := List.mem_map_of_mem
      (fun km => msgViewOf km.1 km.2) hmem2
    simpa [msgViewOf, normalize_list_eq_send] using hview

/-- C8 witness: the theorem at the empty store. -/
theorem c8_witness :
    ∃ v, (sendMessageH emptyStore "p" "a" "hi" 0 (TsValue.fsTs 1 2)).out
        = .ok v
      ∧ v.timestamp = normalizeTimestampList (some (TsValue.fsTs 1 2))
      ∧ Eff.getMessage "p" (genId emptyStore.nextId)
          ∈ (sendMessageH emptyStore "p" "a" "hi" 0 (TsValue.fsTs 1 2)).effs
      ∧ ∃ vs, (listMessagesH
            (sendMessageH emptyStore "p" "a" "hi" 0 (TsValue.fsTs 1 2)).store
            "p").out = .ok vs
          ∧ v ∈ vs :=
  c8_send_list_roundtrip emptyStore "p" "a" "hi" 0 (TsValue.fsTs 1 2)
    (by decide) (by decide) (by decide) (by decide)

/-- C10: sendMessage stores the trimmed senderId in the message record but
puts the raw senderId in the participants roster; for a senderId with
surrounding whitespace the raw form appears in participants, while the
sender's own edit and delete using that same raw senderId hit the
trimmed-vs-raw ownership comparison and fail with 403. -/
theorem c10_whitespace_sender (st : Store) (pid sid content c2 : String)
    (now : Int) (ts : TsValue) (ets : TsValue)
    (hp : ¬ isBlank pid) (hs : ¬ isBlank sid) (hws : jsTrim sid ≠ sid)
    (hc : ¬ isBlank content) (hc2 : ¬ isBlank c2)
    (hmid : ¬ isBlank (genId st.nextId))
    (hfresh : assocGet st.msgs (pid, genId st.nextId) = none) :
    (∃ l, (assocGet (sendMessageH st pid sid content now ts).store.projects
            pid).map ProjectDoc.participants = some l ∧ sid ∈ l)
    ∧ msgLookup (sendMessageH st pid sid content now ts).store pid
        (genId st.nextId)
      = some ⟨jsTrim sid, jsTrim content, some ts, none, none⟩
    ∧ (editMessageH (sendMessageH st pid sid content now ts).store pid
        (genId st.nextId) sid c2 ets).out
      = .error ⟨403, "You can only edit your own messages"⟩
    ∧ (deleteMessageH (sendMessageH st pid sid content now ts).store pid
        (genId st.nextId) sid).out
      = .error ⟨403, "You can only delete your own messages"⟩ := by
  have hres := send_result_of_valid st pid sid content now ts hp hs hc hfresh
  rw [hres]
  have hlook : assocGet (st.msgs ++ [((pid, genId st.nextId),
      (⟨jsTrim sid, jsTrim content, some ts, none, none⟩ : MessageRecord))])
      (pid, genId st.nextId)
      = some ⟨jsTrim sid, jsTrim content, some ts, none, none⟩ := by
    rw [assocGet_append_of_none st.msgs _ _ hfresh]
    simp [assocGet]
  refine ⟨?_, ?_, ?_, ?_⟩
  · have hens := ensure_participants_self st pid sid now
    rw [show ({ (ensureProjectForSender st pid sid now).1 with
          msgs := st.msgs ++ [((pid, genId st.nextId),
            ⟨jsTrim sid, jsTrim content, some ts, none, none⟩)],
          nextId := st.nextId + 1 } : Store).projects
        = (ensureProjectForSender st pid sid now).1.projects from rfl, hens]
    rcases (assocGet st.projects pid).map ProjectDoc.participants with _ | l
    · exact ⟨[sid], rfl, List.mem_singleton_self sid⟩
    · exact ⟨specAppend l sid, rfl, (mem_specAppend sid sid l).mpr (Or.inr rfl)⟩
  · exact hlook
  · unfold editMessageH
    simp only [if_neg hp, if_neg hmid, if_neg hs, if_neg hc2, hlook,
               if_pos hws]
  · unfold deleteMessageH
    simp only [if_neg hp, if_neg hmid, if_neg hs, hlook, if_pos hws]

/-- C10 witness: the theorem for senderId " alice " at the empty store. -/
theorem c10_witness :
    (∃ l, (assocGet (sendMessageH emptyStore "p" " alice " "hi" 0
            (TsValue.fsTs 1 2)).store.projects
            "p").map ProjectDoc.participants = some l ∧ " alice " ∈ l)
    ∧ msgLookup (sendMessageH emptyStore "p" " alice " "hi" 0
        (TsValue.fsTs 1 2)).store "p" (genId emptyStore.nextId)
      = some ⟨jsTrim " alice ", jsTrim "hi", some (TsValue.fsTs 1 2),
              none, none⟩
    ∧ (editMessageH (sendMessageH emptyStore "p" " alice " "hi" 0
        (TsValue.fsTs 1 2)).store "p" (genId emptyStore.nextId)
        " alice " "yo" TsValue.other).out
      = .error ⟨403, "You can only edit your own messages"⟩
    ∧ (deleteMessageH (sendMessageH emptyStore "p" " alice " "hi" 0
        (TsValue.fsTs 1 2)).store "p" (genId emptyStore.nextId)
        " alice ").out
      = .error ⟨403, "You can only delete your own messages"⟩ :=
  c10_whitespace_sender emptyStore "p" " alice " "hi" "yo" 0
    (TsValue.fsTs 1 2) TsValue.other
    (by decide) (by decide) (by decide) (by decide) (by decide)
    (by decide) (by decide)

end MsgApi
